import Mathlib

/-!
Shallow embedding of `src/src/main.c` (big-collatz): a word-array bignum engine
for the Collatz process with a lazy affine accumulator `x ↦ cvalue·x + kvalue`.

Machine integers are modelled as `Nat` with explicit `% 2^64` (resp. `% 2^128`
for the `__uint128_t` intermediates) wherever the C code can wrap.  The word
buffer `narr` is modelled as a total function `Nat → Nat` indexed from the
buffer base (`narr` is index 0); the C pointers `wordoffset`, `lastword` become
indices.  Words beyond the loaded number are modelled as 0 (the C buffer from
`posix_memalign` is uninitialized there; 0 is the concretization used here,
and every theorem that touches such a word says so).  `__builtin_clzll` /
`__builtin_ctzll` are undefined in C on 0; the model gives them the value 64
there (lzcnt/tzcnt semantics) — no confirmed theorem depends on that choice.
-/

/-- 2^64, the word modulus. -/
def W : Nat := 2 ^ 64

/-- MSB64 from main.c line 14: the top bit of a 64-bit word. -/
def MSB64 : Nat := 9223372036854775808

/-- MAX_CVALUE from main.c line 88. -/
def MAX_CVALUE : Nat := 4052555153018976267

/-- MAX_KVALUE from main.c line 89. -/
def MAX_KVALUE : Nat := 6148914691236517204

/-- NWORDS from main.c line 11: configured word capacity for the number. -/
def NWORDS : Nat := 50000000

/-- FARPAD from main.c line 12: extra padding words at the end of the buffer. -/
def FARPAD : Nat := 1000000

/-- Total buffer capacity in words: SCRATCHPAD / sizeof(uint64_t) = NWORDS + FARPAD. -/
def CAP : Nat := NWORDS + FARPAD

/-- Pointwise update of the modelled word buffer (a single 64-bit store). -/
def updateArr (arr : Nat → Nat) (i v : Nat) : Nat → Nat :=
  fun j => if j = i then v else arr j

/-- Fuel-bounded bit length: `bitlenAux f w` is the bit length of `w` for `w < 2^f`. -/
def bitlenAux : Nat → Nat → Nat
  | 0, _ => 0
  | f + 1, w => if w = 0 then 0 else bitlenAux f (w / 2) + 1

/-- Exact bit length of a number of at most 4096 bits (enough for every value
appearing in a concrete theorem of this file); `trueBits 0 = 0`. -/
def trueBits (w : Nat) : Nat := bitlenAux 4096 w

/-- Model of `__builtin_clzll` on a 64-bit word (64 on input 0, where C is undefined). -/
def clzll (w : Nat) : Nat := 64 - bitlenAux 64 w

/-- Fuel-bounded count of trailing zero bits. -/
def ctzAux : Nat → Nat → Nat
  | 0, _ => 0
  | f + 1, w => if w % 2 = 1 then 0 else ctzAux f (w / 2) + 1

/-- Model of `__builtin_ctzll` on a 64-bit word (64 on input 0, where C is undefined). -/
def ctzll (w : Nat) : Nat := ctzAux 64 w

/-- Value of the word window `[lo, lo+n)` read little-endian in base 2^64. -/
def wordsValAux (arr : Nat → Nat) : Nat → Nat → Nat
  | 0, _ => 0
  | n + 1, lo => arr lo + W * wordsValAux arr n (lo + 1)

/-- Value of the word window `[lo, hi)` read little-endian in base 2^64. -/
def wordsVal (arr : Nat → Nat) (lo hi : Nat) : Nat := wordsValAux arr (hi - lo) lo

/-- The mutable state of `main`'s Collatz loop: the word buffer, the cursor
(word index + single-bit mask), the window end, the cached bit size, the
pending affine transform, and the three step counters. -/
structure CState where
  arr : Nat → Nat
  wordoffset : Nat
  bitmask : Nat
  lastword : Nat
  bitsize : Nat
  cvalue : Nat
  kvalue : Nat
  steps : Nat
  divsteps : Nat
  mulsteps : Nat

/-- Single-word lazy 3x+1 update, main.c lines 130-134: doubles the cursor word,
adds the original word and the cursor bit, and derives the 0-2 carry from the
two unsigned-overflow tests.  Returns (new word, carry). -/
def lazyWord (old bitmask : Nat) : Nat × Nat :=
  ((((old <<< 1) % W) + old + bitmask) % W,
    (if (old <<< 1) % W < old then 1 else 0) +
      (if (((old <<< 1) % W) + old + bitmask) % W ≤ (old <<< 1) % W then 1 else 0))

/-- The lazy-evaluation branch, main.c lines 126-134: bump counters, triple
cvalue, rewrite the cursor word, fold the carry into kvalue (all mod 2^64). -/
def lazyUpdate (s : CState) : CState :=
  { s with
    steps := s.steps + 1
    mulsteps := s.mulsteps + 1
    cvalue := (((s.cvalue <<< 1) % W) + s.cvalue) % W
    arr := updateArr s.arr s.wordoffset (lazyWord (s.arr s.wordoffset) s.bitmask).1
    kvalue := (((s.kvalue <<< 1) % W) + s.kvalue +
      (lazyWord (s.arr s.wordoffset) s.bitmask).2) % W }

/-- The even branch, main.c lines 95-105: shift the cursor bit, or on a word
boundary reveal the next word by applying the pending transform to it in
isolation (128-bit multiply-add, high half into kvalue). -/
def evenBranch (s : CState) : CState :=
  if s.bitmask = MSB64 then
    { s with
      arr := updateArr s.arr (s.wordoffset + 1)
        (((s.arr (s.wordoffset + 1) * s.cvalue + s.kvalue) % 2 ^ 128) % W)
      kvalue := ((s.arr (s.wordoffset + 1) * s.cvalue + s.kvalue) % 2 ^ 128) / W
      wordoffset := s.wordoffset + 1
      bitmask := 1
      steps := s.steps + 1
      divsteps := s.divsteps + 1 }
  else
    { s with
      bitmask := (s.bitmask <<< 1) % W
      steps := s.steps + 1
      divsteps := s.divsteps + 1 }

/-- The actualization for-loop, main.c lines 141-146: apply `x·cvalue + kvalue`
to `n` words starting at index `i`, propagating the 64-bit carry.  Arguments:
buffer, cvalue, start index, word count, incoming kvalue. -/
def actLoop : (Nat → Nat) → Nat → Nat → Nat → Nat → (Nat → Nat) × Nat
  | arr, _, _, 0, k => (arr, k)
  | arr, c, i, n + 1, k =>
      actLoop (updateArr arr i (((arr i * c + k) % 2 ^ 128) % W)) c (i + 1) n
        (((arr i * c + k) % 2 ^ 128) / W)

/-- Buffer compaction, main.c lines 156-159: block-copy the window
`[wordoffset, lastword)` to the buffer base and rebase both indices. -/
def compactFn (s : CState) : CState :=
  { s with
    arr := fun i =>
      if i < s.lastword - s.wordoffset then s.arr (s.wordoffset + i) else s.arr i
    lastword := s.lastword - s.wordoffset
    wordoffset := 0 }

/-- The actualize block, main.c lines 139-160: flush the pending transform over
words (wordoffset, lastword), append a nonzero final carry as a new word,
reset the transform to the identity, recompute bitsize (note: the code
measures words from the buffer base `narr`, not from the cursor), and compact
when lastword reaches the end-of-buffer margin.  The telemetry print (lines
162-166) has no effect on this state and is omitted. -/
def actualizeBody (s : CState) : CState :=
  let r := actLoop s.arr s.cvalue (s.wordoffset + 1) (s.lastword - (s.wordoffset + 1)) s.kvalue
  let arr1 := if r.2 ≠ 0 then updateArr r.1 s.lastword r.2 else r.1
  let lw1 := if r.2 ≠ 0 then s.lastword + 1 else s.lastword
  let s1 :=
    { s with
      arr := arr1
      lastword := lw1
      cvalue := 1
      kvalue := 0
      bitsize := (lw1 - 1) * 64 + 64 - clzll (arr1 (lw1 - 1)) - ctzll s.bitmask }
  if CAP - 2 ≤ lw1 then compactFn s1 else s1

/-- The odd branch, main.c lines 124-167: lazy update when cvalue and kvalue
are within their thresholds (with the "hail mary" jump into actualize when the
cursor sits in the last word and kvalue is pending), otherwise actualize
without consuming the current bit. -/
def oddBranch (s : CState) : CState :=
  if s.cvalue ≤ MAX_CVALUE ∧ s.kvalue ≤ MAX_KVALUE then
    if (lazyUpdate s).wordoffset + 1 = (lazyUpdate s).lastword ∧ (lazyUpdate s).kvalue ≠ 0 then
      actualizeBody (lazyUpdate s)
    else lazyUpdate s
  else actualizeBody s

/-- End-of-iteration refresh, main.c lines 170-171: when exactly one word of
the number remains, recompute bitsize from the cursor word and the cursor bit. -/
def bitsizeRefresh (s : CState) : CState :=
  if s.wordoffset + 1 = s.lastword then
    { s with bitsize := 64 - clzll (s.arr s.wordoffset) - ctzll s.bitmask }
  else s

/-- One iteration of the main loop body, main.c lines 94-172: branch on the
cursor bit, then refresh bitsize from the cursor word whenever exactly one
word of the number remains. -/
def stepFn (s : CState) : CState :=
  bitsizeRefresh (if s.arr s.wordoffset &&& s.bitmask = 0 then evenBranch s else oddBranch s)

/-- The main loop, main.c line 94: run at most `n` iterations, stopping as the
loop does when `bitsize = 1`. -/
def run : Nat → CState → CState
  | 0, s => s
  | n + 1, s => if s.bitsize = 1 then s else run n (stepFn s)

/-- The integer the state stands for: the cursor word restricted to bits at or
above the cursor bit, plus the words above the cursor with the pending
transform `x ↦ cvalue·x + kvalue` applied to them (spec §3, buffer invariant
combined with the pending-transform reading of §4.2). -/
def tracked (s : CState) : Nat :=
  s.arr s.wordoffset / s.bitmask +
    (W / s.bitmask) * (s.cvalue * wordsVal s.arr (s.wordoffset + 1) s.lastword + s.kvalue)

/-- Well-formedness invariants of reachable states (spec §3): the mask is a
single bit, the cursor lies inside the window, words are 64-bit, the consumed
bits below the cursor are zero, the transform registers are 64-bit, and the
buffer is zero beyond the window (the model's concretization of memory the
number has never occupied). -/
def StateInv (s : CState) : Prop :=
  (∃ p, p ≤ 63 ∧ s.bitmask = 2 ^ p) ∧
    s.wordoffset < s.lastword ∧
    (∀ i, s.arr i < W) ∧
    s.arr s.wordoffset % s.bitmask = 0 ∧
    s.cvalue < W ∧
    s.kvalue < W ∧
    (∀ i, s.lastword ≤ i → s.arr i = 0)

/-- Input loader word packer, main.c lines 180-187: pack a block of 64
characters into a word, most significant first, mapping every character other
than '0' (not just '1') to a set bit. -/
def asbyte (s : Nat → Char) : Nat :=
  (List.range 64).foldl (fun v i => v + (if s i = '0' then 0 else 1) * 2 ^ (63 - i)) 0

/-- Capacity test of the loader, main.c line 59: with `flen` the file length
minus the trailing newline (= the declared bit length), the input is rejected
iff `flen / 64 > NWORDS`. -/
def capacityReject (flen : Nat) : Bool := NWORDS < flen / 64

/-- State produced by loading a binary input file of `k+1` characters holding
the value 2^k: a single set bit, cursor at the base, bitsize `k+1`. -/
def pow2Init (k : Nat) : CState where
  arr := fun i => if i = k / 64 then 2 ^ (k % 64) else 0
  wordoffset := 0
  bitmask := 1
  lastword := k / 64 + 1
  bitsize := k + 1
  cvalue := 1
  kvalue := 0
  steps := 0
  divsteps := 0
  mulsteps := 0

/-- State produced by loading the 127-character binary input for the value
`w·(2^64+1)` with `w = 6148914691236517205 = (2^64-1)/3`: both words equal
`w`, and `3w+1 = 2^64` exactly. -/
def initC1 : CState where
  arr := fun i => if i < 2 then 6148914691236517205 else 0
  wordoffset := 0
  bitmask := 1
  lastword := 2
  bitsize := 127
  cvalue := 1
  kvalue := 0
  steps := 0
  divsteps := 0
  mulsteps := 0

/-- State produced by loading a 192-character binary input of all '1's, the
value 2^192 - 1: three all-ones words. -/
def initC4 : CState where
  arr := fun i => if i < 3 then 18446744073709551615 else 0
  wordoffset := 0
  bitmask := 1
  lastword := 3
  bitsize := 192
  cvalue := 1
  kvalue := 0
  steps := 0
  divsteps := 0
  mulsteps := 0

/-- Concrete one-word state used as witness input for the halving theorem:
the buffer holds 6, cursor at word 0 bit 0, identity transform. -/
def exC3 : CState :=
  CState.mk (fun i => if i = 0 then 6 else 0) 0 1 1 3 1 0 0 0 0

/-- Concrete three-word state with the window at the far end of the buffer
(`lastword = CAP - 2`), used as witness input for the compaction theorem. -/
def exC6 : CState :=
  CState.mk
    (fun i =>
      if i = 50999995 then 5 else if i = 50999996 then 7 else if i = 50999997 then 9 else 0)
    50999995 1 50999998 0 3 11 1 2 3

/-- Midpoint state of the run started on 2^k, after `j ≤ k` halvings: the
buffer never changes, the cursor sits at bit `j`, and `bitsize` has been
refreshed by main.c line 170 exactly when the cursor word is the last word. -/
def pow2Mid (k j : Nat) : CState where
  arr := fun i => if i = k / 64 then 2 ^ (k % 64) else 0
  wordoffset := j / 64
  bitmask := 2 ^ (j % 64)
  lastword := k / 64 + 1
  bitsize := if j / 64 = k / 64 then k % 64 + 1 - j % 64 else k + 1
  cvalue := 1
  kvalue := 0
  steps := j
  divsteps := j
  mulsteps := 0

theorem Wval : W = 18446744073709551616 := by norm_num [W]

theorem W_pos : 0 < W := by rw [Wval]; omega

theorem updateArr_self (arr : Nat → Nat) (i v : Nat) : updateArr arr i v i = v := by
  simp [updateArr]

theorem updateArr_ne (arr : Nat → Nat) (i v j : Nat) (h : j ≠ i) :
    updateArr arr i v j = arr j := by
  simp [updateArr, h]

theorem updateArr_id (arr : Nat → Nat) (i : Nat) : updateArr arr i (arr i) = arr := by
  funext j
  by_cases h : j = i <;> simp [updateArr, h]

theorem bitlenAux_zero (f : Nat) : bitlenAux f 0 = 0 := by
  cases f <;> simp [bitlenAux]

theorem bitlenAux_two_pow : ∀ f r, r < f → bitlenAux f (2 ^ r) = r + 1
  | f + 1, 0, _ => by simp [bitlenAux, bitlenAux_zero]
  | f + 1, r + 1, h => by
      have h2 : (2 : Nat) ^ (r + 1) ≠ 0 := by positivity
      have hdiv : (2 : Nat) ^ (r + 1) / 2 = 2 ^ r := by
        rw [pow_succ]
        exact Nat.mul_div_cancel _ (by norm_num)
      simp [bitlenAux, h2, hdiv, bitlenAux_two_pow f r (by omega)]

theorem clzll_two_pow (r : Nat) (h : r ≤ 63) : clzll (2 ^ r) = 63 - r := by
  unfold clzll
  rw [bitlenAux_two_pow 64 r (by omega)]
  omega

theorem ctzAux_two_pow : ∀ f p, p < f → ctzAux f (2 ^ p) = p
  | f + 1, 0, _ => by simp [ctzAux]
  | f + 1, p + 1, h => by
      have hmod : (2 : Nat) ^ (p + 1) % 2 = 0 := by
        rw [pow_succ]
        simp
      have hdiv : (2 : Nat) ^ (p + 1) / 2 = 2 ^ p := by
        rw [pow_succ]
        exact Nat.mul_div_cancel _ (by norm_num)
      simp [ctzAux, hmod, hdiv, ctzAux_two_pow f p (by omega)]

theorem ctzll_two_pow (p : Nat) (h : p ≤ 63) : ctzll (2 ^ p) = p :=
  ctzAux_two_pow 64 p (by omega)

theorem wordsValAux_congr : ∀ (n : Nat) (a1 a2 : Nat → Nat) (lo1 lo2 : Nat),
    (∀ j, j < n → a1 (lo1 + j) = a2 (lo2 + j)) →
    wordsValAux a1 n lo1 = wordsValAux a2 n lo2
  | 0, _, _, _, _, _ => rfl
  | n + 1, a1, a2, lo1, lo2, h => by
      have h0 := h 0 (by omega)
      simp only [Nat.add_zero] at h0
      have ih := wordsValAux_congr n a1 a2 (lo1 + 1) (lo2 + 1) (fun j hj => by
        have hs := h (j + 1) (by omega)
        have e1 : lo1 + (j + 1) = lo1 + 1 + j := by omega
        have e2 : lo2 + (j + 1) = lo2 + 1 + j := by omega
        rw [e1, e2] at hs
        exact hs)
      simp [wordsValAux, h0, ih]

theorem wordsVal_of_le (arr : Nat → Nat) (lo hi : Nat) (h : hi ≤ lo) :
    wordsVal arr lo hi = 0 := by
  unfold wordsVal
  have e : hi - lo = 0 := by omega
  rw [e]
  rfl

theorem wordsVal_split (arr : Nat → Nat) (lo hi : Nat) (h : lo < hi) :
    wordsVal arr lo hi = arr lo + W * wordsVal arr (lo + 1) hi := by
  unfold wordsVal
  have e : hi - lo = (hi - (lo + 1)) + 1 := by omega
  rw [e]
  rfl

theorem wordsVal_update_out (arr : Nat → Nat) (i v lo hi : Nat) (h : i < lo ∨ hi ≤ i) :
    wordsVal (updateArr arr i v) lo hi = wordsVal arr lo hi := by
  unfold wordsVal
  apply wordsValAux_congr
  intro j hj
  exact updateArr_ne arr i v (lo + j) (by omega)

theorem pow3_le_iff (t : Nat) : 3 ^ t ≤ MAX_CVALUE ↔ 3 ^ (t + 1) < 2 ^ 64 := by
  have h1 : MAX_CVALUE = 3 ^ 39 := by norm_num [MAX_CVALUE]
  constructor
  · intro h
    have ht : t ≤ 39 := by
      by_contra hc
      have h40 : (3 : Nat) ^ 40 ≤ 3 ^ t := Nat.pow_le_pow_right (by norm_num) (by omega)
      rw [h1] at h
      have := le_trans h40 h
      norm_num at this
    calc 3 ^ (t + 1) ≤ 3 ^ 40 := Nat.pow_le_pow_right (by norm_num) (by omega)
      _ < 2 ^ 64 := by norm_num
  · intro h
    have ht : t ≤ 39 := by
      by_contra hc
      have h41 : (3 : Nat) ^ 41 ≤ 3 ^ (t + 1) := Nat.pow_le_pow_right (by norm_num) (by omega)
      have h42 : (2 : Nat) ^ 64 < 3 ^ 41 := by norm_num
      omega
    rw [h1]
    exact Nat.pow_le_pow_right (by norm_num) ht

theorem foldl_range_add (f : Nat → Nat) : ∀ (n : Nat) (a : Nat),
    (List.range n).foldl (fun v i => v + f i) a = a + ∑ i ∈ Finset.range n, f i
  | 0, a => by simp
  | n + 1, a => by
      rw [List.range_succ, List.foldl_append, foldl_range_add f n a, Finset.sum_range_succ]
      simp [Nat.add_assoc]

theorem sum_two_pow_lt (c : Nat → Nat) (hc : ∀ j, c j ≤ 1) :
    ∀ n, (∑ j ∈ Finset.range n, c j * 2 ^ j) < 2 ^ n
  | 0 => by simp
  | n + 1 => by
      rw [Finset.sum_range_succ]
      have h1 := sum_two_pow_lt c hc n
      have h2 : c n * 2 ^ n ≤ 2 ^ n := by
        calc c n * 2 ^ n ≤ 1 * 2 ^ n := Nat.mul_le_mul_right _ (hc n)
          _ = 2 ^ n := one_mul _
      have h3 : (2 : Nat) ^ (n + 1) = 2 ^ n + 2 ^ n := by ring
      omega

theorem sum_two_pow_testBit (c : Nat → Nat) (hc : ∀ j, c j ≤ 1) :
    ∀ n k, k < n → (∑ j ∈ Finset.range n, c j * 2 ^ j).testBit k = decide (c k = 1)
  | 0, k, h => by omega
  | n + 1, k, h => by
      rw [Finset.sum_range_succ]
      rcases Nat.lt_or_ge k n with hk | hk
      · have e1 : c n * 2 ^ n = c n * 2 ^ (n - 1 - k) * 2 * 2 ^ k := by
          rw [mul_assoc, mul_assoc, ← pow_succ']
          rw [← pow_add]
          congr 2
          omega
        rw [Nat.testBit_to_div_mod, e1, Nat.add_mul_div_right _ _ (Nat.two_pow_pos k),
          Nat.add_mul_mod_self_right, ← Nat.testBit_to_div_mod]
        exact sum_two_pow_testBit c hc n k hk
      · have hkn : k = n := by omega
        subst hkn
        have hS := sum_two_pow_lt c hc k
        rw [Nat.testBit_to_div_mod, Nat.add_mul_div_right _ _ (Nat.two_pow_pos k),
          Nat.div_eq_of_lt hS, Nat.zero_add]
        have hck := hc k
        simp only [decide_eq_decide]
        constructor <;> omega

/-- C2 (counterexample): the single-word lazy update identity fails for
`old = 2^64 - 1`, `bitmask = 2^63` even though the cursor bit of `old` is set:
the true carry of `3·old + bitmask` is 3 but the two overflow tests of main.c
line 134 can only produce 0-2, so `3·old + bitmask ≠ new + carry·2^64`. -/
theorem claim2_cex :
    (2 ^ 64 - 1) &&& 2 ^ 63 ≠ 0 ∧
      3 * (2 ^ 64 - 1) + 2 ^ 63 ≠
        (lazyWord (2 ^ 64 - 1) (2 ^ 63)).1 + (lazyWord (2 ^ 64 - 1) (2 ^ 63)).2 * 2 ^ 64 := by
  constructor <;> decide

/-- C2 (amended): the single-word lazy update of main.c lines 130-134 is
correct for every 64-bit word `old` whose cursor bit is set and whose bits
below the cursor bit are zero (the invariant of every reachable cursor word):
`3·old + bitmask = new + carry·2^64` with `carry ≤ 2`. -/
theorem lazyWord_correct (old p : Nat) (hold : old < W) (hp : p < 64)
    (hbit : old &&& 2 ^ p ≠ 0) (hlow : old % 2 ^ p = 0) :
    3 * old + 2 ^ p = (lazyWord old (2 ^ p)).1 + (lazyWord old (2 ^ p)).2 * W ∧
      (lazyWord old (2 ^ p)).2 ≤ 2 := by
  have hpp : 0 < 2 ^ p := Nat.two_pow_pos p
  have hone : old ≠ 0 := by
    intro h
    rw [h, Nat.zero_and] at hbit
    exact hbit rfl
  have hdvd : 2 ^ p ∣ old := Nat.dvd_of_mod_eq_zero hlow
  have hop : 2 ^ p ≤ old := Nat.le_of_dvd (Nat.pos_of_ne_zero hone) hdvd
  have hWp : (2 : Nat) ^ p ∣ W := by
    unfold W
    exact pow_dvd_pow 2 (by omega)
  have hOW : old + 2 ^ p ≤ W := by
    obtain ⟨a, ha⟩ := hdvd
    obtain ⟨b, hb⟩ := hWp
    have hab : a < b := by
      by_contra hc
      have : 2 ^ p * b ≤ 2 ^ p * a := Nat.mul_le_mul_left _ (by omega)
      omega
    calc old + 2 ^ p = 2 ^ p * (a + 1) := by rw [ha]; ring
      _ ≤ 2 ^ p * b := Nat.mul_le_mul_left _ (by omega)
      _ = W := hb.symm
  have hsh : old <<< 1 = 2 * old := by
    rw [Nat.shiftLeft_eq]
    ring
  have hW : 0 < W := W_pos
  simp only [lazyWord, hsh]
  rcases Nat.lt_or_ge (2 * old) W with h2 | h2
  · have hmod2 : 2 * old % W = 2 * old := Nat.mod_eq_of_lt h2
    rw [hmod2]
    rcases Nat.lt_or_ge (2 * old + old + 2 ^ p) W with h3 | h3
    · rw [Nat.mod_eq_of_lt h3, if_neg (by omega), if_neg (by omega)]
      omega
    · have hm3 : (2 * old + old + 2 ^ p) % W = 2 * old + old + 2 ^ p - W := by
        rw [Nat.mod_eq_sub_mod h3, Nat.mod_eq_of_lt (by omega)]
      rw [hm3, if_neg (by omega), if_pos (by omega)]
      omega
  · have hmod2 : 2 * old % W = 2 * old - W := by
      rw [Nat.mod_eq_sub_mod h2, Nat.mod_eq_of_lt (by omega)]
    rw [hmod2]
    rcases Nat.lt_or_ge (2 * old - W + old + 2 ^ p) W with h3 | h3
    · rw [Nat.mod_eq_of_lt h3, if_pos (by omega), if_neg (by omega)]
      omega
    · have hm3 : (2 * old - W + old + 2 ^ p) % W = 2 * old - W + old + 2 ^ p - W := by
        rw [Nat.mod_eq_sub_mod h3, Nat.mod_eq_of_lt (by omega)]
      rw [hm3, if_pos (by omega), if_pos (by omega)]
      omega

/-- Witness for the amended C2 at `old = 3·2^62`, `bitmask = 2^62`. -/
theorem lazyWord_correct_witness :
    3 * (3 * 2 ^ 62) + 2 ^ 62 =
        (lazyWord (3 * 2 ^ 62) (2 ^ 62)).1 + (lazyWord (3 * 2 ^ 62) (2 ^ 62)).2 * W ∧
      (lazyWord (3 * 2 ^ 62) (2 ^ 62)).2 ≤ 2 :=
  lazyWord_correct (3 * 2 ^ 62) 62 (by rw [Wval]; norm_num) (by omega) (by decide) (by decide)

/-- C5 (counterexample): the lazy-update guard threshold for cvalue is not
`floor((2^64-1)/3)`: MAX_CVALUE in main.c line 88 is 4052555153018976267
while `(2^64-1)/3 = 6148914691236517205`. -/
theorem claim5_cex : MAX_CVALUE ≠ (2 ^ 64 - 1) / 3 := by decide

/-- C5 (amended): MAX_CVALUE is `3^39`, the largest value cvalue ever takes
(cvalue is always a power of three) for which one more tripling fits in 64
bits, and MAX_KVALUE is `floor((2^64-3)/3)`, the largest kvalue for which
`3·kvalue + 2` fits; whenever the guard of main.c line 124 passes, the updates
`cvalue ← 3·cvalue` and `kvalue ← 3·kvalue + carry` (carry ≤ 2) do not wrap
around 2^64. -/
theorem claim5_amended :
    MAX_CVALUE = 3 ^ 39 ∧ MAX_KVALUE = (2 ^ 64 - 3) / 3 ∧
      (∀ t : Nat, 3 ^ t ≤ MAX_CVALUE ↔ 3 ^ (t + 1) < 2 ^ 64) ∧
      (∀ c k carry : Nat, c ≤ MAX_CVALUE → k ≤ MAX_KVALUE → carry ≤ 2 →
        3 * c < 2 ^ 64 ∧ 3 * k + carry < 2 ^ 64) := by
  refine ⟨by decide, by decide, pow3_le_iff, ?_⟩
  intro c k carry hc hk hcar
  have h64 : (2 : Nat) ^ 64 = 18446744073709551616 := by norm_num
  unfold MAX_CVALUE at hc
  unfold MAX_KVALUE at hk
  omega

/-- Witness for the amended C5 at `cvalue = 3^39`, `kvalue = MAX_KVALUE`,
`carry = 2`. -/
theorem claim5_amended_witness :
    3 * 3 ^ 39 < 2 ^ 64 ∧ 3 * 6148914691236517204 + 2 < 2 ^ 64 :=
  claim5_amended.2.2.2 (3 ^ 39) 6148914691236517204 2 (by decide) (by decide) (by decide)

/-- C8 (counterexample): an input whose declared bit length is
`64·NWORDS + 1` exceeds the capacity of NWORDS 64-bit words, yet the check of
main.c line 59 (`bitsize / 64 > NWORDS`) does not reject it. -/
theorem claim8_cex : 64 * NWORDS < 3200000001 ∧ capacityReject 3200000001 = false := by
  constructor <;> decide

/-- C8 (amended): the loader rejects an input exactly when its declared bit
length (file length minus the trailing newline) is at least `64·(NWORDS+1)`,
i.e. at least a full word beyond the NWORDS-word capacity; in particular
every input of at most `64·NWORDS` bits — and even up to 63 bits more — is
accepted. -/
theorem capacityReject_iff (flen : Nat) :
    capacityReject flen = true ↔ 64 * NWORDS + 64 ≤ flen := by
  unfold capacityReject
  simp only [decide_eq_true_eq]
  constructor
  · intro h
    have h2 : NWORDS + 1 ≤ flen / 64 := by omega
    have h3 := (Nat.le_div_iff_mul_le (by norm_num : 0 < 64)).mp h2
    unfold NWORDS at h3 ⊢
    omega
  · intro h
    have h2 : (NWORDS + 1) * 64 ≤ flen := by
      unfold NWORDS at h ⊢
      omega
    have h3 := (Nat.le_div_iff_mul_le (by norm_num : 0 < 64)).mpr h2
    omega

/-- C10: `asbyte` maps a 64-character block to the word whose bit `63 - i` is
set exactly when character `i` differs from '0'; every character is accepted,
and every non-'0' character (malformed ones included) reads as a 1 bit. -/
theorem asbyte_bits (s : Nat → Char) (i : Nat) (hi : i < 64) :
    (asbyte s).testBit (63 - i) = true ↔ s i ≠ '0' := by
  have hc : ∀ j, (if s (63 - j) = '0' then 0 else 1) ≤ 1 := by
    intro j
    split <;> omega
  have hrepr : asbyte s = ∑ j ∈ Finset.range 64, (if s (63 - j) = '0' then 0 else 1) * 2 ^ j := by
    unfold asbyte
    rw [foldl_range_add, Nat.zero_add, ← Finset.sum_range_reflect]
    apply Finset.sum_congr rfl
    intro j hj
    simp only [Finset.mem_range] at hj
    have e1 : 64 - 1 - j = 63 - j := by omega
    have e2 : 63 - (63 - j) = j := by omega
    rw [e1, e2]
  rw [hrepr, sum_two_pow_testBit _ hc 64 (63 - i) (by omega)]
  have e3 : 63 - (63 - i) = i := by omega
  rw [e3]
  by_cases h : s i = '0' <;> simp [h]

/-- Witness for C10 at the malformed character 'x' in position 0. -/
theorem asbyte_bits_witness :
    (asbyte fun _ => 'x').testBit (63 - 0) = true ↔ (fun _ : Nat => 'x') 0 ≠ '0' :=
  asbyte_bits (fun _ => 'x') 0 (by omega)

theorem MSB64_eq : MSB64 = 2 ^ 63 := by norm_num [MSB64]

theorem boundary_alg (a c k h2 : Nat) :
    2 * ((a * c + k) % W + W * (c * h2 + (a * c + k) / W)) =
      0 + 2 * (c * (a + W * h2) + k) := by
  have hmd := Nat.mod_add_div (a * c + k) W
  calc 2 * ((a * c + k) % W + W * (c * h2 + (a * c + k) / W))
      = 2 * (((a * c + k) % W + W * ((a * c + k) / W)) + W * (c * h2)) := by ring
    _ = 2 * ((a * c + k) + W * (c * h2)) := by rw [hmd]
    _ = 0 + 2 * (c * (a + W * h2) + k) := by ring

theorem two_pow_128_eq : (2 : Nat) ^ 128 = 340282366920938463463374607431768211456 := by
  norm_num

/-- C3: from every state satisfying the reachable-state invariants whose
tracked value is even, the even branch of main.c lines 95-105 is the branch
taken (the cursor bit is clear) and one execution of it exactly halves the
tracked value — both when the bit mask merely shifts and when the cursor
crosses a word boundary and the newly revealed word gets the pending
transform applied in isolation. -/
theorem evenBranch_halves (s : CState) (h : StateInv s) (hev : tracked s % 2 = 0) :
    s.arr s.wordoffset &&& s.bitmask = 0 ∧ 2 * tracked (evenBranch s) = tracked s := by
  obtain ⟨⟨p, hp, hbm⟩, hwl, harr, hlow, hc, hk, hzero⟩ := h
  have hWdiv : W / 2 ^ p = 2 ^ (64 - p) := by
    unfold W
    exact Nat.pow_div (by omega) (by norm_num)
  have hexp : (2 : Nat) ^ (64 - p) = 2 ^ (63 - p) * 2 := by
    rw [← pow_succ]
    congr 1
    omega
  have hLev : (s.arr s.wordoffset / 2 ^ p) % 2 = 0 := by
    have ht : tracked s = s.arr s.wordoffset / 2 ^ p +
        (2 ^ (63 - p) *
          (s.cvalue * wordsVal s.arr (s.wordoffset + 1) s.lastword + s.kvalue)) * 2 := by
      unfold tracked
      rw [hbm, hWdiv, hexp]
      ring
    rw [ht, Nat.add_mul_mod_self_right] at hev
    exact hev
  have hbit : s.arr s.wordoffset &&& s.bitmask = 0 := by
    rw [hbm, Nat.and_two_pow, Nat.testBit_to_div_mod, hLev]
    simp
  refine ⟨hbit, ?_⟩
  rcases Nat.lt_or_ge p 63 with hplt | hpge
  · -- bit mask shifts inside the word
    have hne : s.bitmask ≠ MSB64 := by
      rw [hbm, MSB64_eq]
      intro he
      have := Nat.pow_right_injective (le_refl 2) he
      omega
    have hlt : (2 : Nat) ^ (p + 1) < W := by
      have h1 : (2 : Nat) ^ (p + 1) ≤ 2 ^ 63 := Nat.pow_le_pow_right (by norm_num) (by omega)
      have h2 : (2 : Nat) ^ 63 < W := by rw [Wval]; norm_num
      omega
    have hbm' : ((2 : Nat) ^ p <<< 1) % W = 2 ^ (p + 1) := by
      rw [Nat.shiftLeft_eq, pow_one, ← pow_succ, Nat.mod_eq_of_lt hlt]
    have hW1 : W / 2 ^ (p + 1) = 2 ^ (63 - p) := by
      unfold W
      rw [Nat.pow_div (by omega) (by norm_num)]
      congr 1
      omega
    have hdd : s.arr s.wordoffset / 2 ^ (p + 1) = s.arr s.wordoffset / 2 ^ p / 2 := by
      rw [pow_succ, ← Nat.div_div_eq_div_mul]
    unfold evenBranch
    rw [if_neg hne]
    unfold tracked
    simp only [hbm]
    rw [hbm', hW1, hWdiv, hdd, hexp, Nat.mul_add]
    have hL2 : 2 * (s.arr s.wordoffset / 2 ^ p / 2) = s.arr s.wordoffset / 2 ^ p := by
      omega
    rw [hL2]
    ring
  · -- word boundary: p = 63
    have hp63 : p = 63 := by omega
    subst hp63
    have hmsb : s.bitmask = MSB64 := by rw [hbm, MSB64_eq]
    have hv : (s.arr (s.wordoffset + 1) * s.cvalue + s.kvalue) % 2 ^ 128 =
        s.arr (s.wordoffset + 1) * s.cvalue + s.kvalue := by
      apply Nat.mod_eq_of_lt
      have h1 : s.arr (s.wordoffset + 1) * s.cvalue ≤ (W - 1) * (W - 1) :=
        Nat.mul_le_mul (by have := harr (s.wordoffset + 1); omega) (by omega)
      rw [Wval] at h1
      rw [two_pow_128_eq]
      have h2 := hk
      rw [Wval] at h2
      omega
    have hsplit : wordsVal s.arr (s.wordoffset + 1) s.lastword =
        s.arr (s.wordoffset + 1) + W * wordsVal s.arr (s.wordoffset + 2) s.lastword := by
      rcases Nat.lt_or_ge (s.wordoffset + 1) s.lastword with hlt | hge
      · exact wordsVal_split _ _ _ hlt
      · rw [wordsVal_of_le _ _ _ hge, wordsVal_of_le _ _ _ (by omega),
          hzero _ (by omega)]
        simp
    have hL0 : s.arr s.wordoffset / 2 ^ 63 = 0 := by
      have hb := harr s.wordoffset
      rw [Wval] at hb
      have : s.arr s.wordoffset / 2 ^ 63 < 2 := by
        apply Nat.div_lt_of_lt_mul
        norm_num
        omega
      omega
    have hW63 : W / 2 ^ 63 = 2 := by rw [Wval]; norm_num
    unfold evenBranch
    rw [if_pos hmsb]
    unfold tracked
    simp only [hv, updateArr_self, Nat.div_one]
    rw [wordsVal_update_out _ _ _ _ _ (by omega)]
    rw [hbm, hL0, hW63, hsplit]
    exact boundary_alg (s.arr (s.wordoffset + 1)) s.cvalue s.kvalue
      (wordsVal s.arr (s.wordoffset + 2) s.lastword)

/-- Witness for C3: a one-word state holding the even value 6 with the cursor
at bit 0; the even branch produces tracked value 3. -/
theorem evenBranch_halves_witness :
    exC3.arr exC3.wordoffset &&& exC3.bitmask = 0 ∧
      2 * tracked (evenBranch exC3) = tracked exC3 :=
  evenBranch_halves exC3
    ⟨⟨0, by omega, rfl⟩, by decide,
      fun i => by
        show (if i = 0 then 6 else 0) < W
        split
        · rw [Wval]; omega
        · rw [Wval]; omega,
      by decide, by decide, by decide,
      fun i hi => by
        have hi1 : 1 ≤ i := hi
        show (if i = 0 then 6 else 0) = 0
        rw [if_neg (by omega)]⟩
    (by decide)

/-- C6: whenever compaction runs (lastword within two words of the buffer's
end), the block copy of main.c lines 156-159 preserves the tracked integer,
the pending transform, bitsize and all counters; only the window's indices
move, both decreasing by the cursor offset. -/
theorem compactFn_preserves (s : CState) (h1 : s.wordoffset < s.lastword)
    (_h2 : CAP - 2 ≤ s.lastword) :
    tracked (compactFn s) = tracked s ∧ (compactFn s).cvalue = s.cvalue ∧
      (compactFn s).kvalue = s.kvalue ∧ (compactFn s).bitmask = s.bitmask ∧
      (compactFn s).bitsize = s.bitsize ∧ (compactFn s).steps = s.steps ∧
      (compactFn s).divsteps = s.divsteps ∧ (compactFn s).mulsteps = s.mulsteps ∧
      (compactFn s).wordoffset = s.wordoffset - s.wordoffset ∧
      (compactFn s).lastword = s.lastword - s.wordoffset := by
  have e1 : (compactFn s).arr 0 = s.arr s.wordoffset := by
    show (if 0 < s.lastword - s.wordoffset then s.arr (s.wordoffset + 0) else s.arr 0) =
      s.arr s.wordoffset
    rw [if_pos (by omega), Nat.add_zero]
  have e2 : wordsVal (compactFn s).arr 1 (s.lastword - s.wordoffset) =
      wordsVal s.arr (s.wordoffset + 1) s.lastword := by
    unfold wordsVal
    have ecnt : s.lastword - s.wordoffset - 1 = s.lastword - (s.wordoffset + 1) := by omega
    rw [ecnt]
    apply wordsValAux_congr
    intro j hj
    show (if 1 + j < s.lastword - s.wordoffset then s.arr (s.wordoffset + (1 + j))
      else s.arr (1 + j)) = s.arr (s.wordoffset + 1 + j)
    rw [if_pos (by omega)]
    congr 1
    omega
  have etr : tracked (compactFn s) =
      (compactFn s).arr 0 / s.bitmask +
        (W / s.bitmask) *
          (s.cvalue * wordsVal (compactFn s).arr 1 (s.lastword - s.wordoffset) + s.kvalue) := rfl
  refine ⟨?_, rfl, rfl, rfl, rfl, rfl, rfl, rfl, ?_, rfl⟩
  · rw [etr, e1, e2]
    rfl
  · show (0 : Nat) = s.wordoffset - s.wordoffset
    omega

/-- Witness for C6 at the concrete far-end state `exC6`. -/
theorem compactFn_preserves_witness :
    tracked (compactFn exC6) = tracked exC6 ∧ (compactFn exC6).cvalue = exC6.cvalue ∧
      (compactFn exC6).kvalue = exC6.kvalue ∧ (compactFn exC6).bitmask = exC6.bitmask ∧
      (compactFn exC6).bitsize = exC6.bitsize ∧ (compactFn exC6).steps = exC6.steps ∧
      (compactFn exC6).divsteps = exC6.divsteps ∧ (compactFn exC6).mulsteps = exC6.mulsteps ∧
      (compactFn exC6).wordoffset = exC6.wordoffset - exC6.wordoffset ∧
      (compactFn exC6).lastword = exC6.lastword - exC6.wordoffset :=
  compactFn_preserves exC6 (by decide) (by decide)

theorem evenBranch_cvalue (s : CState) : (evenBranch s).cvalue = s.cvalue := by
  unfold evenBranch
  split <;> rfl

theorem actualizeBody_cvalue (s : CState) : (actualizeBody s).cvalue = 1 := by
  unfold actualizeBody
  dsimp only
  split <;> split <;> rfl

theorem bitsizeRefresh_cvalue (s1 : CState) : (bitsizeRefresh s1).cvalue = s1.cvalue := by
  unfold bitsizeRefresh
  split <;> rfl

theorem stepFn_cvalue (s : CState) (h : ∃ t, s.cvalue = 3 ^ t) :
    ∃ t, (stepFn s).cvalue = 3 ^ t := by
  obtain ⟨t, ht⟩ := h
  have hstep : (stepFn s).cvalue =
      (if s.arr s.wordoffset &&& s.bitmask = 0 then evenBranch s else oddBranch s).cvalue :=
    bitsizeRefresh_cvalue _
  rw [hstep]
  by_cases h1 : s.arr s.wordoffset &&& s.bitmask = 0
  · rw [if_pos h1, evenBranch_cvalue]
    exact ⟨t, ht⟩
  · rw [if_neg h1]
    unfold oddBranch
    by_cases h2 : s.cvalue ≤ MAX_CVALUE ∧ s.kvalue ≤ MAX_KVALUE
    · rw [if_pos h2]
      have hb : s.cvalue * 2 + s.cvalue < W := by
        have h3 := h2.1
        unfold MAX_CVALUE at h3
        rw [Wval]
        omega
      have hcv : (lazyUpdate s).cvalue = 3 ^ (t + 1) := by
        show (((s.cvalue <<< 1) % W) + s.cvalue) % W = 3 ^ (t + 1)
        rw [Nat.shiftLeft_eq, pow_one, Nat.mod_eq_of_lt (by omega : s.cvalue * 2 < W),
          Nat.mod_eq_of_lt hb, ht]
        ring
      split
      · exact ⟨0, actualizeBody_cvalue _⟩
      · exact ⟨t + 1, hcv⟩
    · rw [if_neg h2]
      exact ⟨0, actualizeBody_cvalue _⟩

theorem run_cvalue (n : Nat) : ∀ s, (∃ t, s.cvalue = 3 ^ t) → ∃ t, (run n s).cvalue = 3 ^ t := by
  induction n with
  | zero => exact fun s h => h
  | succ n ih =>
      intro s h
      have hr : run (n + 1) s = if s.bitsize = 1 then s else run n (stepFn s) := rfl
      rw [hr]
      split
      · exact h
      · exact ih (stepFn s) (stepFn_cvalue s h)

/-- C9: starting from any state with the identity transform (as the program
does), cvalue is an exact power of three in every reachable state of the main
loop — tripled by each lazy odd step, reset to `3^0` by actualization, and
never anything in between — and the guard `cvalue ≤ MAX_CVALUE` holds exactly
when one more tripling stays below 2^64. -/
theorem cvalue_power_of_three (s0 : CState) (h0 : s0.cvalue = 1) (n : Nat) :
    ∃ t, (run n s0).cvalue = 3 ^ t ∧
      ((run n s0).cvalue ≤ MAX_CVALUE ↔ 3 ^ (t + 1) < 2 ^ 64) := by
  obtain ⟨t, ht⟩ := run_cvalue n s0 ⟨0, by rw [h0]; norm_num⟩
  exact ⟨t, ht, by rw [ht]; exact pow3_le_iff t⟩

/-- Witness for C9: two steps of the run started on 2^3. -/
theorem cvalue_power_of_three_witness :
    ∃ t, (run 2 (pow2Init 3)).cvalue = 3 ^ t ∧
      ((run 2 (pow2Init 3)).cvalue ≤ MAX_CVALUE ↔ 3 ^ (t + 1) < 2 ^ 64) :=
  cvalue_power_of_three (pow2Init 3) rfl 2

theorem pow2Init_eq (k : Nat) : pow2Init k = pow2Mid k 0 := by
  unfold pow2Init pow2Mid
  congr 1
  rw [Nat.zero_div, Nat.zero_mod]
  by_cases h : (0 : Nat) = k / 64
  · rw [if_pos h]
    omega
  · rw [if_neg h]

theorem pow2_step (k j : Nat) (hj : j < k) : stepFn (pow2Mid k j) = pow2Mid k (j + 1) := by
  have hcase : j / 64 < k / 64 ∨ (j / 64 = k / 64 ∧ j % 64 < k % 64) := by omega
  have hbit : (if j / 64 = k / 64 then (2 : Nat) ^ (k % 64) else 0) &&& 2 ^ (j % 64) = 0 := by
    rcases hcase with h | ⟨h1, h2⟩
    · rw [if_neg (by omega), Nat.zero_and]
    · rw [if_pos h1, Nat.and_two_pow, Nat.testBit_two_pow_of_ne (by omega)]
      simp
  unfold stepFn evenBranch bitsizeRefresh pow2Mid
  dsimp only
  rw [if_pos hbit]
  rcases Nat.lt_or_ge (j % 64) 63 with hjr | hjr
  · -- the bit mask shifts inside the cursor word
    have hmne : ¬((2 : Nat) ^ (j % 64) = MSB64) := by
      rw [MSB64_eq]
      intro he
      have := Nat.pow_right_injective (le_refl 2) he
      omega
    have hsh : ((2 : Nat) ^ (j % 64) <<< 1) % W = 2 ^ (j % 64 + 1) := by
      rw [Nat.shiftLeft_eq, pow_one, ← pow_succ]
      apply Nat.mod_eq_of_lt
      have h1 : (2 : Nat) ^ (j % 64 + 1) ≤ 2 ^ 63 := Nat.pow_le_pow_right (by norm_num) (by omega)
      have h2 : (2 : Nat) ^ 63 = 9223372036854775808 := by norm_num
      rw [Wval]
      omega
    rw [if_neg hmne]
    dsimp only
    rw [hsh]
    by_cases hlast : j / 64 = k / 64
    · rw [if_pos (show j / 64 + 1 = k / 64 + 1 by omega)]
      simp only [CState.mk.injEq, and_true, true_and]
      refine ⟨by omega, ?_, ?_⟩
      · rw [show (j + 1) % 64 = j % 64 + 1 by omega]
      · rw [if_pos hlast, if_pos (show (j + 1) / 64 = k / 64 by omega),
          clzll_two_pow _ (by omega), ctzll_two_pow _ (by omega)]
        omega
    · rw [if_neg (show ¬(j / 64 + 1 = k / 64 + 1) by omega)]
      simp only [CState.mk.injEq, and_true, true_and]
      refine ⟨by omega, ?_, ?_⟩
      · rw [show (j + 1) % 64 = j % 64 + 1 by omega]
      · rw [if_neg hlast, if_neg (show ¬((j + 1) / 64 = k / 64) by omega)]
  · -- word boundary: the cursor moves to the next word
    have hjr63 : j % 64 = 63 := by omega
    have hklow : j / 64 < k / 64 := by omega
    have hmeq : (2 : Nat) ^ (j % 64) = MSB64 := by
      rw [MSB64_eq, hjr63]
    have harrlt : (if j / 64 + 1 = k / 64 then (2 : Nat) ^ (k % 64) else 0) < W := by
      have h1 : (2 : Nat) ^ (k % 64) ≤ 2 ^ 63 := Nat.pow_le_pow_right (by norm_num) (by omega)
      have h2 : (2 : Nat) ^ 63 = 9223372036854775808 := by norm_num
      rw [Wval]
      split <;> omega
    have hv : ((if j / 64 + 1 = k / 64 then (2 : Nat) ^ (k % 64) else 0) * 1 + 0) % 2 ^ 128 =
        if j / 64 + 1 = k / 64 then (2 : Nat) ^ (k % 64) else 0 := by
      rw [Nat.mul_one, Nat.add_zero]
      apply Nat.mod_eq_of_lt
      rw [two_pow_128_eq]
      rw [Wval] at harrlt
      omega
    rw [if_pos hmeq]
    dsimp only
    rw [hv, Nat.mod_eq_of_lt harrlt, Nat.div_eq_of_lt harrlt, updateArr_id]
    by_cases hlast : j / 64 + 1 = k / 64
    · rw [if_pos (show j / 64 + 1 + 1 = k / 64 + 1 by omega)]
      rw [if_pos hlast]
      simp only [CState.mk.injEq, and_true, true_and]
      refine ⟨by omega, ?_, ?_⟩
      · rw [show (j + 1) % 64 = 0 by omega]
        rfl
      · rw [if_pos (show (j + 1) / 64 = k / 64 by omega),
          clzll_two_pow _ (by omega), show ctzll 1 = 0 from rfl]
        omega
    · rw [if_neg (show ¬(j / 64 + 1 + 1 = k / 64 + 1) by omega)]
      simp only [CState.mk.injEq, and_true, true_and]
      refine ⟨by omega, ?_, ?_⟩
      · rw [show (j + 1) % 64 = 0 by omega]
        rfl
      · rw [if_neg (show ¬(j / 64 = k / 64) by omega),
          if_neg (show ¬((j + 1) / 64 = k / 64) by omega)]

theorem run_fix (n : Nat) (s : CState) (h : s.bitsize = 1) : run n s = s := by
  cases n with
  | zero => rfl
  | succ n =>
      show (if s.bitsize = 1 then s else run n (stepFn s)) = s
      rw [if_pos h]

theorem pow2_run : ∀ n k j, 1 ≤ k → j ≤ k → k - j ≤ n → run n (pow2Mid k j) = pow2Mid k k
  | 0, k, j, hk, hj, hn => by
      have hjk : j = k := by omega
      rw [hjk]
      rfl
  | n + 1, k, j, hk, hj, hn => by
      by_cases hjk : j = k
      · rw [hjk]
        apply run_fix
        show (if k / 64 = k / 64 then k % 64 + 1 - k % 64 else k + 1) = 1
        rw [if_pos rfl]
        omega
      · have hr : run (n + 1) (pow2Mid k j) =
            if (pow2Mid k j).bitsize = 1 then pow2Mid k j
            else run n (stepFn (pow2Mid k j)) := rfl
        have hne : ¬((pow2Mid k j).bitsize = 1) := by
          show ¬((if j / 64 = k / 64 then k % 64 + 1 - j % 64 else k + 1) = 1)
          split
          · omega
          · omega
        rw [hr, if_neg hne, pow2_step k j (by omega),
          pow2_run n k (j + 1) hk (by omega) (by omega)]

/-- C7: starting the driver on the value 2^k (for any k ≥ 1), the run
terminates with exactly k division steps, zero multiplication steps, total
step count k, and final bitsize 1. -/
theorem pow2_trajectory (k n : Nat) (hk : 1 ≤ k) (hn : k ≤ n) :
    (run n (pow2Init k)).steps = k ∧ (run n (pow2Init k)).divsteps = k ∧
      (run n (pow2Init k)).mulsteps = 0 ∧ (run n (pow2Init k)).bitsize = 1 := by
  rw [pow2Init_eq, pow2_run n k 0 hk (by omega) (by omega)]
  refine ⟨rfl, rfl, rfl, ?_⟩
  show (if k / 64 = k / 64 then k % 64 + 1 - k % 64 else k + 1) = 1
  rw [if_pos rfl]
  omega

/-- Witness for C7 at k = 1 with fuel 1. -/
theorem pow2_trajectory_witness :
    (run 1 (pow2Init 1)).steps = 1 ∧ (run 1 (pow2Init 1)).divsteps = 1 ∧
      (run 1 (pow2Init 1)).mulsteps = 0 ∧ (run 1 (pow2Init 1)).bitsize = 1 :=
  pow2_trajectory 1 1 (le_refl 1) (le_refl 1)

set_option maxRecDepth 100000 in
/-- C1 (the code evaluated at the failing input): starting from the loaded
127-bit value `w·(2^64+1)` with `w = (2^64-1)/3`, after 65 iterations the
cursor sits in the last word, that word is 0, and kvalue = 1 is still pending
(here main.c line 171 already evaluates `__builtin_clzll(0)`, undefined in C);
64 iterations later the even branch advances the cursor to `lastword` itself,
so the engine walks past the number and reads a word the number never occupied
(uninitialized memory in C).  From there the lazy/eager correspondence of the
word buffer is lost, so the equivalence cannot hold as stated for every
starting value. -/
theorem cursor_escapes_window :
    (run 65 initC1).wordoffset + 1 = (run 65 initC1).lastword ∧
      (run 65 initC1).arr (run 65 initC1).wordoffset = 0 ∧
      (run 65 initC1).kvalue = 1 ∧
      (run 129 initC1).wordoffset = (run 129 initC1).lastword ∧
      (run 129 initC1).steps = 129 :=
  ⟨rfl, rfl, rfl, rfl, rfl⟩

set_option maxRecDepth 100000 in
/-- C4 (the code evaluated at the failing input): starting from the loaded
192-bit value `2^192 - 1`, iteration 162 is an actualization (cvalue and
kvalue have just been reset) with the cursor in word 1, and main.c line 152
sets bitsize to 303 — measured from the buffer base `narr` — while the exact
bit length of the tracked value, measured from the cursor's bit position as
the spec demands, is 239: the code overcounts by 64·wordoffset bits. -/
theorem bitsize_not_bitlength_after_actualize :
    (run 162 initC4).cvalue = 1 ∧ (run 162 initC4).kvalue = 0 ∧
      (run 162 initC4).wordoffset = 1 ∧ (run 162 initC4).bitsize = 303 ∧
      trueBits (tracked (run 162 initC4)) = 239 :=
  ⟨rfl, rfl, rfl, rfl, rfl⟩

/-- Witness for the amended C8 at the first rejected length `64·(NWORDS+1)`. -/
theorem capacityReject_iff_witness :
    capacityReject 3200000064 = true ↔ 64 * NWORDS + 64 ≤ 3200000064 :=
  capacityReject_iff 3200000064
